import Mathlib

/-!
# Verification of the MTIE computation core

A shallow embedding, in Lean 4, of the algorithmic core of the `mtie`
application (`src/lib.rs`): the complete O(n^2) MTIE engine
(`mtie_complete`), the fast hierarchical min/max-pyramid engine
(`mtie_fast`), the algorithm selector inside `run`, and the
monotonicity validator (`check_monotomically_increasing`).

Modelling conventions:
* `f64` sample values are modelled as `ℚ` (exact arithmetic; the
  engines only use comparison, subtraction and absolute value).
* `u32` / `usize` quantities are modelled as `ℕ`.  None of the
  subtractions appearing in the loops underflow within the ranges in
  which the loops run, so `ℕ` truncated subtraction agrees with the
  machine arithmetic there.
* The Rust expression `(N as f64).log2() as u32` is modelled as
  `Nat.log 2 N`: for every `N` of `u32` range the floating point
  computation yields exactly `floor (log2 N)` (the saturating cast
  sends `-inf`, obtained for `N = 0`, to `0`, and `log2` of an
  integer is never rounded across an integer boundary), which is
  `Nat.log 2 N`.
* Rust panics are modelled by an explicit error result (`Except`),
  one constructor per panic site of the source.
* Push-loops over integer ranges are rendered as `List.map` /
  `List.foldl` over `List.range'` / `List.range` of the same bounds.
-/

namespace MtieLib

/-- Error outcomes of the two panic sites in `src/lib.rs`:
the size ceiling of `mtie_complete`, and the validator panic in
`check_monotomically_increasing`. -/
inductive MtieError where
  | sizeExceeded (ceiling actual : ℕ)
  | notMonotonic (i j : ℕ) (v0 v1 : ℚ)
  deriving DecidableEq, Repr

/-! ## Generic maximum-fold helpers

The source accumulates maxima through loops of the shape
`if v > m { m = v }`.  `foldMax` is the corresponding list fold. -/

/-- Left fold of `max` over a list, seeded with `d`. -/
def foldMax (d : ℚ) (l : List ℚ) : ℚ := l.foldl max d

theorem le_foldMax_self (d : ℚ) (l : List ℚ) : d ≤ foldMax d l := by
  induction l generalizing d with
  | nil => exact le_refl d
  | cons a t ih => exact le_trans (le_max_left d a) (ih (max d a))

theorem le_foldMax_of_mem {a : ℚ} {l : List ℚ} (d : ℚ) (h : a ∈ l) :
    a ≤ foldMax d l := by
  induction l generalizing d with
  | nil => cases h
  | cons b t ih =>
    rcases List.mem_cons.1 h with rfl | hm
    · exact le_trans (le_max_right d a) (le_foldMax_self (max d a) t)
    · exact ih (max d b) hm

theorem foldMax_le {d c : ℚ} {l : List ℚ} (hd : d ≤ c)
    (h : ∀ a ∈ l, a ≤ c) : foldMax d l ≤ c := by
  induction l generalizing d with
  | nil => exact hd
  | cons a t ih =>
    exact ih (max_le hd (h a (List.mem_cons_self a t)))
      fun b hb => h b (List.mem_cons_of_mem a hb)

theorem foldMax_eq_or_mem (d : ℚ) (l : List ℚ) :
    foldMax d l = d ∨ foldMax d l ∈ l := by
  induction l generalizing d with
  | nil => exact Or.inl rfl
  | cons a t ih =>
    have hfold : foldMax d (a :: t) = foldMax (max d a) t := rfl
    rcases ih (max d a) with h | h
    · rcases max_cases d a with ⟨hm, _⟩ | ⟨hm, _⟩
      · exact Or.inl (by rw [hfold, h, hm])
      · refine Or.inr ?_
        rw [hfold, h, hm]
        exact List.mem_cons_self a t
    · refine Or.inr ?_
      rw [hfold]
      exact List.mem_cons_of_mem a h

/-- The accumulation step `if v > m then v else m` used by the loops of
the source is `max m v`. -/
theorem if_gt_eq_max (m v : ℚ) : (if v > m then v else m) = max m v := by
  rcases le_or_lt v m with h | h
  · rw [if_neg (not_lt.2 h), max_eq_left h]
  · rw [if_pos h, max_eq_right h.le]

/-- The step `if a > b then a else b` (as in the pyramid combination of
two sub-window maxima) is `max a b`. -/
theorem if_gt_eq_max' (a b : ℚ) : (if a > b then a else b) = max a b := by
  rcases le_or_lt a b with h | h
  · rw [if_neg (not_lt.2 h), max_eq_right h]
  · rw [if_pos h, max_eq_left h.le]

/-- The step `if a < b then a else b` (pyramid combination of two
sub-window minima) is `min a b`. -/
theorem if_lt_eq_min (a b : ℚ) : (if a < b then a else b) = min a b := by
  rcases le_or_lt b a with h | h
  · rw [if_neg (not_lt.2 h), min_eq_right h]
  · rw [if_pos h, min_eq_left h.le]

/-! ## Windows of a sample sequence

`winMax x s m` / `winMin x s m` are the maximum / minimum sample value
in the window of `m` consecutive samples starting at 0-based index `s`.
Out-of-range indices read the default `0` (`List.getD`); all uses are
guarded by bounds hypotheses under which no default is ever read. -/

/-- Maximum of the window of `m` samples starting at index `s`. -/
def winMax (x : List ℚ) : ℕ → ℕ → ℚ
  | _, 0 => 0
  | s, 1 => x.getD s 0
  | s, m + 2 => max (x.getD s 0) (winMax x (s + 1) (m + 1))

/-- Minimum of the window of `m` samples starting at index `s`. -/
def winMin (x : List ℚ) : ℕ → ℕ → ℚ
  | _, 0 => 0
  | s, 1 => x.getD s 0
  | s, m + 2 => min (x.getD s 0) (winMin x (s + 1) (m + 1))

theorem winMax_one (x : List ℚ) (s : ℕ) : winMax x s 1 = x.getD s 0 := rfl

theorem winMin_one (x : List ℚ) (s : ℕ) : winMin x s 1 = x.getD s 0 := rfl

theorem winMax_succ_succ (x : List ℚ) (s m : ℕ) :
    winMax x s (m + 2) = max (x.getD s 0) (winMax x (s + 1) (m + 1)) := rfl

theorem winMin_succ_succ (x : List ℚ) (s m : ℕ) :
    winMin x s (m + 2) = min (x.getD s 0) (winMin x (s + 1) (m + 1)) := rfl

theorem winMax_two (x : List ℚ) (s : ℕ) :
    winMax x s 2 = max (x.getD s 0) (x.getD (s + 1) 0) := rfl

theorem winMin_two (x : List ℚ) (s : ℕ) :
    winMin x s 2 = min (x.getD s 0) (x.getD (s + 1) 0) := rfl

theorem le_winMax (x : List ℚ) (j m s : ℕ) (hj : j < m) :
    x.getD (s + j) 0 ≤ winMax x s m := by
  induction m generalizing s j with
  | zero => omega
  | succ m ih =>
    cases m with
    | zero =>
      have hj0 : j = 0 := by omega
      subst hj0
      simp [winMax]
    | succ m =>
      rw [winMax_succ_succ]
      cases j with
      | zero =>
        simp
      | succ j =>
        have h1 : x.getD (s + 1 + j) 0 ≤ winMax x (s + 1) (m + 1) := ih j (s + 1) (by omega)
        have h2 : s + 1 + j = s + (j + 1) := by omega
        rw [h2] at h1
        exact le_trans h1 (le_max_right (x.getD s 0) (winMax x (s + 1) (m + 1)))

theorem winMin_le (x : List ℚ) (j m s : ℕ) (hj : j < m) :
    winMin x s m ≤ x.getD (s + j) 0 := by
  induction m generalizing s j with
  | zero => omega
  | succ m ih =>
    cases m with
    | zero =>
      have hj0 : j = 0 := by omega
      subst hj0
      simp [winMin]
    | succ m =>
      rw [winMin_succ_succ]
      cases j with
      | zero =>
        simp
      | succ j =>
        have h1 : winMin x (s + 1) (m + 1) ≤ x.getD (s + 1 + j) 0 := ih j (s + 1) (by omega)
        have h2 : s + 1 + j = s + (j + 1) := by omega
        rw [h2] at h1
        exact le_trans (min_le_right (x.getD s 0) (winMin x (s + 1) (m + 1))) h1

theorem winMax_exists (x : List ℚ) (m s : ℕ) (hm : 1 ≤ m) :
    ∃ j, j < m ∧ winMax x s m = x.getD (s + j) 0 := by
  induction m generalizing s with
  | zero => omega
  | succ m ih =>
    cases m with
    | zero => exact ⟨0, by omega, by simp [winMax]⟩
    | succ m =>
      obtain ⟨j, hj, hval⟩ := ih (s + 1) (by omega)
      rw [winMax_succ_succ]
      rcases max_cases (x.getD s 0) (winMax x (s + 1) (m + 1)) with ⟨hc, _⟩ | ⟨hc, _⟩
      · refine ⟨0, by omega, ?_⟩
        rw [hc, Nat.add_zero]
      · refine ⟨j + 1, by omega, ?_⟩
        rw [hc, hval]
        congr 1
        omega

theorem winMin_exists (x : List ℚ) (m s : ℕ) (hm : 1 ≤ m) :
    ∃ j, j < m ∧ winMin x s m = x.getD (s + j) 0 := by
  induction m generalizing s with
  | zero => omega
  | succ m ih =>
    cases m with
    | zero => exact ⟨0, by omega, by simp [winMin]⟩
    | succ m =>
      obtain ⟨j, hj, hval⟩ := ih (s + 1) (by omega)
      rw [winMin_succ_succ]
      rcases min_cases (x.getD s 0) (winMin x (s + 1) (m + 1)) with ⟨hc, _⟩ | ⟨hc, _⟩
      · refine ⟨0, by omega, ?_⟩
        rw [hc, Nat.add_zero]
      · refine ⟨j + 1, by omega, ?_⟩
        rw [hc, hval]
        congr 1
        omega

/-- Splitting a window into two consecutive sub-windows splits its
maximum. -/
theorem winMax_split (x : List ℚ) (m n s : ℕ) (hm : 1 ≤ m) (hn : 1 ≤ n) :
    winMax x s (m + n) = max (winMax x s m) (winMax x (s + m) n) := by
  induction m generalizing s with
  | zero => omega
  | succ m ih =>
    cases m with
    | zero =>
      obtain ⟨n', rfl⟩ : ∃ n', n = n' + 1 := ⟨n - 1, by omega⟩
      rw [show 1 + (n' + 1) = n' + 2 from by omega, winMax_succ_succ, winMax_one]
    | succ m =>
      have h1 : m + 1 + 1 + n = (m + n) + 2 := by omega
      rw [h1, winMax_succ_succ]
      have h2 : m + n + 1 = (m + 1) + n := by omega
      rw [h2, ih (s + 1) (by omega)]
      rw [winMax_succ_succ]
      have h3 : s + 1 + (m + 1) = s + (m + 1 + 1) := by omega
      rw [h3, ← max_assoc]

/-- Splitting a window into two consecutive sub-windows splits its
minimum. -/
theorem winMin_split (x : List ℚ) (m n s : ℕ) (hm : 1 ≤ m) (hn : 1 ≤ n) :
    winMin x s (m + n) = min (winMin x s m) (winMin x (s + m) n) := by
  induction m generalizing s with
  | zero => omega
  | succ m ih =>
    cases m with
    | zero =>
      obtain ⟨n', rfl⟩ : ∃ n', n = n' + 1 := ⟨n - 1, by omega⟩
      rw [show 1 + (n' + 1) = n' + 2 from by omega, winMin_succ_succ, winMin_one]
    | succ m =>
      have h1 : m + 1 + 1 + n = (m + n) + 2 := by omega
      rw [h1, winMin_succ_succ]
      have h2 : m + n + 1 = (m + 1) + n := by omega
      rw [h2, ih (s + 1) (by omega)]
      rw [winMin_succ_succ]
      have h3 : s + 1 + (m + 1) = s + (m + 1 + 1) := by omega
      rw [h3, ← min_assoc]

/-! ## Peak-to-peak excursion of windows (the quantity of the spec)

`rangeAt x s m` is the peak-to-peak excursion (window maximum minus
window minimum) of the window of `m` samples starting at `s`, and
`windowRangeMax x m` is its maximum over all window start positions
`0, 1, ..., x.length - m` — "the maximum, over all windows of `m`
consecutive samples, of (window maximum − window minimum)". -/

/-- Peak-to-peak excursion of the window of `m` samples starting at `s`. -/
def rangeAt (x : List ℚ) (s m : ℕ) : ℚ := winMax x s m - winMin x s m

/-- Maximum peak-to-peak excursion over all windows of `m` consecutive
samples (window starts `0` to `x.length - m`). -/
def windowRangeMax (x : List ℚ) (m : ℕ) : ℚ :=
  foldMax (rangeAt x 0 m) ((List.range' 1 (x.length - m)).map (fun s => rangeAt x s m))

theorem rangeAt_nonneg (x : List ℚ) (s m : ℕ) (hm : 1 ≤ m) : 0 ≤ rangeAt x s m := by
  have h1 := winMin_le x 0 m s hm
  have h2 := le_winMax x 0 m s hm
  have := le_trans h1 h2
  simpa [rangeAt, sub_nonneg] using this

/-- Any two samples inside a window differ by at most its excursion. -/
theorem abs_sub_le_rangeAt (x : List ℚ) (s m i j : ℕ) (hi : i < m) (hj : j < m) :
    |x.getD (s + i) 0 - x.getD (s + j) 0| ≤ rangeAt x s m := by
  rw [abs_sub_le_iff, rangeAt]
  constructor
  · exact sub_le_sub (le_winMax x i m s hi) (winMin_le x j m s hj)
  · exact sub_le_sub (le_winMax x j m s hj) (winMin_le x i m s hi)

theorem rangeAt_le_windowRangeMax (x : List ℚ) (s m : ℕ)
    (hs : s ≤ x.length - m) : rangeAt x s m ≤ windowRangeMax x m := by
  rcases Nat.eq_zero_or_pos s with rfl | hpos
  · exact le_foldMax_self _ _
  · refine le_foldMax_of_mem _ (List.mem_map.2 ⟨s, ?_, rfl⟩)
    exact List.mem_range'_1.2 ⟨hpos, by omega⟩

theorem windowRangeMax_le (x : List ℚ) (m : ℕ) {c : ℚ}
    (h : ∀ s, s ≤ x.length - m → rangeAt x s m ≤ c) :
    windowRangeMax x m ≤ c := by
  refine foldMax_le (h 0 (Nat.zero_le _)) ?_
  intro a ha
  obtain ⟨s, hs, rfl⟩ := List.mem_map.1 ha
  obtain ⟨hs1, hs2⟩ := List.mem_range'_1.1 hs
  exact h s (by omega)

theorem windowRangeMax_exists (x : List ℚ) (m : ℕ) :
    ∃ s, s ≤ x.length - m ∧ windowRangeMax x m = rangeAt x s m := by
  rcases foldMax_eq_or_mem (rangeAt x 0 m)
      ((List.range' 1 (x.length - m)).map (fun s => rangeAt x s m)) with h | h
  · exact ⟨0, Nat.zero_le _, h⟩
  · obtain ⟨s, hs, hval⟩ := List.mem_map.1 h
    obtain ⟨hs1, hs2⟩ := List.mem_range'_1.1 hs
    exact ⟨s, by omega, hval.symm⟩

theorem windowRangeMax_nonneg (x : List ℚ) (m : ℕ) (hm : 1 ≤ m) :
    0 ≤ windowRangeMax x m :=
  le_trans (rangeAt_nonneg x 0 m hm) (le_foldMax_self _ _)

/-- A window's excursion is at most that of any enclosing window. -/
theorem rangeAt_le_of_subwindow (x : List ℚ) {s s' m m' : ℕ} (hm : 1 ≤ m)
    (h1 : s' ≤ s) (h2 : s + m ≤ s' + m') : rangeAt x s m ≤ rangeAt x s' m' := by
  have hmax : winMax x s m ≤ winMax x s' m' := by
    obtain ⟨j, hj, hval⟩ := winMax_exists x m s hm
    rw [hval, show s + j = s' + (s + j - s') from by omega]
    exact le_winMax x (s + j - s') m' s' (by omega)
  have hmin : winMin x s' m' ≤ winMin x s m := by
    obtain ⟨j, hj, hval⟩ := winMin_exists x m s hm
    rw [hval, show s + j = s' + (s + j - s') from by omega]
    exact winMin_le x (s + j - s') m' s' (by omega)
  exact sub_le_sub hmax hmin

/-- Widening the windows cannot decrease the maximal excursion
(as long as the wider window still fits the sequence). -/
theorem windowRangeMax_mono (x : List ℚ) {m m' : ℕ} (hm : 1 ≤ m)
    (hmm : m ≤ m') (hfit : m' ≤ x.length) :
    windowRangeMax x m ≤ windowRangeMax x m' := by
  refine windowRangeMax_le x m ?_
  intro s hs
  refine le_trans (rangeAt_le_of_subwindow x hm (min_le_left s (x.length - m'))
      ?_) (rangeAt_le_windowRangeMax x (min s (x.length - m')) m' (min_le_right _ _))
  rcases le_or_lt s (x.length - m') with hcase | hcase
  · rw [min_eq_left hcase]
    omega
  · rw [min_eq_right hcase.le]
    omega

/-! ## The per-tau scan of the Complete Engine, per the spec

`scanSpecMax x tau` is "the maximum over every window start from `0` to
`N − tau − 1` of the absolute difference between `samples[start+tau]`
and `samples[start]`", and `specVal x tau` additionally takes the larger
of that scan maximum and the previous tau's value (`0` before `tau = 1`).
These definitions follow the wording of the specification; the theorems
below connect them to the loops of `mtie_complete`. -/

/-- Maximum absolute sample difference over all start positions of the
interval `tau` (`0` when the scan is empty, which never happens for
`1 ≤ tau ≤ N - 1`; all scanned values are nonnegative). -/
def scanSpecMax (x : List ℚ) (tau : ℕ) : ℚ :=
  foldMax 0 ((List.range (x.length - tau)).map
    (fun start => |x.getD (start + tau) 0 - x.getD start 0|))

/-- The value the spec assigns to interval `tau`: the scan maximum at
`tau`, seeded with the value of interval `tau - 1` (`0` before `tau = 1`). -/
def specVal (x : List ℚ) : ℕ → ℚ
  | 0 => 0
  | t + 1 => max (scanSpecMax x (t + 1)) (specVal x t)

theorem abs_le_scanSpecMax (x : List ℚ) (tau start : ℕ)
    (h : start < x.length - tau) :
    |x.getD (start + tau) 0 - x.getD start 0| ≤ scanSpecMax x tau :=
  le_foldMax_of_mem _ (List.mem_map.2 ⟨start, List.mem_range.2 h, rfl⟩)

theorem scanSpecMax_le (x : List ℚ) (tau : ℕ) {c : ℚ} (hc : 0 ≤ c)
    (h : ∀ start, start < x.length - tau →
      |x.getD (start + tau) 0 - x.getD start 0| ≤ c) :
    scanSpecMax x tau ≤ c := by
  refine foldMax_le hc ?_
  intro a ha
  obtain ⟨start, hstart, rfl⟩ := List.mem_map.1 ha
  exact h start (List.mem_range.1 hstart)

theorem scanSpecMax_nonneg (x : List ℚ) (tau : ℕ) : 0 ≤ scanSpecMax x tau :=
  le_foldMax_self _ _

theorem specVal_nonneg (x : List ℚ) (tau : ℕ) : 0 ≤ specVal x tau := by
  induction tau with
  | zero => exact le_refl 0
  | succ t ih => exact le_trans ih (le_max_right _ _)

theorem specVal_succ_le (x : List ℚ) (t : ℕ) : specVal x t ≤ specVal x (t + 1) :=
  le_max_right _ _

theorem specVal_mono (x : List ℚ) {t t' : ℕ} (h : t ≤ t') :
    specVal x t ≤ specVal x t' := by
  induction t' with
  | zero => simp [Nat.le_zero.1 h]
  | succ t' ih =>
    rcases Nat.lt_or_ge t (t' + 1) with hlt | hge
    · exact le_trans (ih (by omega)) (specVal_succ_le x t')
    · have : t = t' + 1 := by omega
      subst this
      exact le_refl _

theorem scanSpecMax_le_specVal (x : List ℚ) {t tau : ℕ} (h1 : 1 ≤ t)
    (h2 : t ≤ tau) : scanSpecMax x t ≤ specVal x tau := by
  obtain ⟨t', rfl⟩ : ∃ t', t = t' + 1 := ⟨t - 1, by omega⟩
  exact le_trans (le_max_left _ (specVal x t')) (specVal_mono x h2)

theorem specVal_le (x : List ℚ) (tau : ℕ) {c : ℚ} (hc : 0 ≤ c)
    (h : ∀ t, 1 ≤ t → t ≤ tau → scanSpecMax x t ≤ c) : specVal x tau ≤ c := by
  induction tau with
  | zero => exact hc
  | succ t ih =>
    refine max_le (h (t + 1) (by omega) (le_refl _)) (ih ?_)
    intro u hu1 hu2
    exact h u hu1 (by omega)

/-- Cumulative endpoint-difference maximum equals windowed peak-to-peak
maximum: the value the Complete Engine assigns to interval `tau` (the
per-`tau` scan maxima accumulated over `1..tau`) is exactly the maximum
peak-to-peak excursion over all windows of `tau + 1` consecutive
samples.  This is the bridge between the two engines' notions of MTIE. -/
theorem specVal_eq_windowRangeMax (x : List ℚ) (tau : ℕ) (h1 : 1 ≤ tau)
    (h2 : tau + 1 ≤ x.length) :
    specVal x tau = windowRangeMax x (tau + 1) := by
  apply le_antisymm
  · refine specVal_le x tau (windowRangeMax_nonneg x (tau + 1) (by omega)) ?_
    intro t ht1 ht2
    refine scanSpecMax_le x t (windowRangeMax_nonneg x (tau + 1) (by omega)) ?_
    intro s hs
    have hwin : s + t ≤ min s (x.length - (tau + 1)) + tau := by
      rcases le_or_lt s (x.length - (tau + 1)) with hc | hc
      · rw [min_eq_left hc]; omega
      · rw [min_eq_right hc.le]; omega
    have hb1 : min s (x.length - (tau + 1)) ≤ s := min_le_left _ _
    have habs := abs_sub_le_rangeAt x (min s (x.length - (tau + 1))) (tau + 1)
      (s + t - min s (x.length - (tau + 1))) (s - min s (x.length - (tau + 1)))
      (by omega) (by omega)
    rw [show min s (x.length - (tau + 1)) + (s + t - min s (x.length - (tau + 1))) = s + t
        from by omega,
      show min s (x.length - (tau + 1)) + (s - min s (x.length - (tau + 1))) = s
        from by omega] at habs
    exact le_trans habs (rangeAt_le_windowRangeMax x _ (tau + 1) (min_le_right _ _))
  · refine windowRangeMax_le x (tau + 1) ?_
    intro s hs
    obtain ⟨a, ha, hva⟩ := winMax_exists x (tau + 1) s (by omega)
    obtain ⟨b, hb, hvb⟩ := winMin_exists x (tau + 1) s (by omega)
    rw [rangeAt, hva, hvb]
    rcases Nat.lt_trichotomy a b with hab | hab | hab
    · have habs : x.getD (s + a) 0 - x.getD (s + b) 0
          ≤ |x.getD ((s + a) + (b - a)) 0 - x.getD (s + a) 0| := by
        rw [show (s + a) + (b - a) = s + b from by omega, abs_sub_comm]
        exact le_abs_self _
      refine le_trans habs (le_trans (abs_le_scanSpecMax x (b - a) (s + a) (by omega))
        (scanSpecMax_le_specVal x (t := b - a) (by omega) (by omega)))
    · rw [hab, sub_self]
      exact specVal_nonneg x tau
    · have habs : x.getD (s + a) 0 - x.getD (s + b) 0
          ≤ |x.getD ((s + b) + (a - b)) 0 - x.getD (s + b) 0| := by
        rw [show (s + b) + (a - b) = s + a from by omega]
        exact le_abs_self _
      refine le_trans habs (le_trans (abs_le_scanSpecMax x (a - b) (s + b) (by omega))
        (scanSpecMax_le_specVal x (t := a - b) (by omega) (by omega)))

/-! ## The embedded source functions

One Lean definition per function of `src/lib.rs` (loop bodies that the
source writes inline are named: `completeScan` is the inner
`interval_start` loop of `mtie_complete`, `completeStep` its `tau` loop
body, `levelRow` the per-`k` construction of the pyramid rows `a_M[k]`,
`a_m[k]`).  Push-loops are rendered as `map`/`foldl` over the loop
range. -/

/-- `MAX_DATA_SET_SIZE` of `mtie_complete`. -/
def MAX_DATA_SET_SIZE : ℕ := 100000

/-- Inner loop of `mtie_complete`: scan every `interval_start` from `0`
to `count - tau - 1`, keeping the maximum absolute difference. -/
def completeScan (samples : List ℚ) (tau : ℕ) : ℚ :=
  (List.range (samples.length - tau)).foldl
    (fun maximum interval_start =>
      let left_value := samples.getD interval_start 0
      let right_value := samples.getD (interval_start + tau) 0
      let difference := |right_value - left_value|
      if difference > maximum then difference else maximum)
    0

/-- Body of the `tau` loop of `mtie_complete`: state is
`(prev_maximum, mtie)`. -/
def completeStep (samples : List ℚ) (st : ℚ × List (ℕ × ℚ)) (tau : ℕ) :
    ℚ × List (ℕ × ℚ) :=
  let prev_maximum := st.1
  let maximum := completeScan samples tau
  let maximum := if prev_maximum > maximum then prev_maximum else maximum
  (maximum, st.2 ++ [(tau, maximum)])

/-- The `tau` loop of `mtie_complete` (`for tau in 1..count`),
producing the result vector. -/
def mtieCompleteList (samples : List ℚ) : List (ℕ × ℚ) :=
  let count := samples.length
  ((List.range' 1 (count - 1)).foldl (completeStep samples) (0, [])).2

/-- The comparison `window[1] < window[0]` of
`check_monotomically_increasing`: Rust's derived lexicographic partial
order on the pairs `(u32, f64)` — interval first, value second. -/
def pairLt (a b : ℕ × ℚ) : Prop := a.1 < b.1 ∨ (a.1 = b.1 ∧ a.2 < b.2)

instance (a b : ℕ × ℚ) : Decidable (pairLt a b) := by
  unfold pairLt
  infer_instance

/-- The `windows(2).enumerate()` loop of
`check_monotomically_increasing`; returns the panic payload
`(index, index + 1, window[0].1, window[1].1)` of the first violation,
`none` when the check passes. -/
def checkAux : ℕ → List (ℕ × ℚ) → Option (ℕ × ℕ × ℚ × ℚ)
  | _, [] => none
  | _, [_] => none
  | index, w0 :: w1 :: rest =>
    if pairLt w1 w0 then some (index, index + 1, w0.2, w1.2)
    else checkAux (index + 1) (w1 :: rest)

/-- `check_monotomically_increasing` of `src/lib.rs`: `none` means the
function returns normally, `some payload` means it panics with that
payload. -/
def check_monotomically_increasing (mtie : List (ℕ × ℚ)) :
    Option (ℕ × ℕ × ℚ × ℚ) :=
  checkAux 0 mtie

/-- `mtie_complete` of `src/lib.rs`.  The two panic sites (size
ceiling, validator) are modelled as error results. -/
def mtie_complete (samples : List ℚ) : Except MtieError (List (ℕ × ℚ)) :=
  let count := samples.length
  if count > MAX_DATA_SET_SIZE then
    Except.error (MtieError.sizeExceeded MAX_DATA_SET_SIZE count)
  else
    let mtie := mtieCompleteList samples
    match check_monotomically_increasing mtie with
    | some (i, j, v0, v1) => Except.error (MtieError.notMonotonic i j v0 v1)
    | none => Except.ok mtie

/-- The per-`k` pyramid rows `(a_M[k], a_m[k])` of `mtie_fast`, dummy
leading entry included (`a_M[0]`/`a_m[0]` are the dummy rows pushed
before the loop; row `k ≥ 1` is built from row `k - 1` exactly as in
the source).  For `k` beyond `k_max` the rows are never read by
`mtie_fast` (in the source they are never built). -/
def levelRow (samples : List ℚ) : ℕ → List ℚ × List ℚ
  | 0 => ([], [])
  | 1 =>
    let N := samples.length
    let i_max := N - 2 ^ 1 + 1
    ((0 : ℚ) :: (List.range' 1 i_max).map (fun i =>
        let val1 := samples.getD (i - 1) 0
        let val2 := samples.getD i 0
        if val1 > val2 then val1 else val2),
     (0 : ℚ) :: (List.range' 1 i_max).map (fun i =>
        let val1 := samples.getD (i - 1) 0
        let val2 := samples.getD i 0
        if val1 < val2 then val1 else val2))
  | k + 2 =>
    let N := samples.length
    let i_max := N - 2 ^ (k + 2) + 1
    let p := 2 ^ (k + 1)
    let prev := levelRow samples (k + 1)
    ((0 : ℚ) :: (List.range' 1 i_max).map (fun i =>
        let max1 := prev.1.getD i 0
        let max2 := prev.1.getD (i + p) 0
        if max1 > max2 then max1 else max2),
     (0 : ℚ) :: (List.range' 1 i_max).map (fun i =>
        let min1 := prev.2.getD i 0
        let min2 := prev.2.getD (i + p) 0
        if min1 < min2 then min1 else min2))

/-- The output loop of `mtie_fast`: for each level `k` from `1` to
`k_max = floor(log2 N)`, emit `(tau, mtie_k)` with `tau = 2^k - 1` and
`mtie_k` the maximum of `a_M[k][i] - a_m[k][i]` over
`i = 1..N - 2^k + 1`. -/
def mtieFastList (samples : List ℚ) : List (ℕ × ℚ) :=
  let N := samples.length
  let k_max := Nat.log 2 N
  (List.range' 1 k_max).map (fun k =>
    let i_max := N - 2 ^ k + 1
    let tau := 2 ^ k - 1
    let a_M_k := (levelRow samples k).1
    let a_m_k := (levelRow samples k).2
    let mtie_k := (List.range' 2 (i_max - 1)).foldl
      (fun mtie_k i =>
        if a_M_k.getD i 0 - a_m_k.getD i 0 > mtie_k then
          a_M_k.getD i 0 - a_m_k.getD i 0
        else mtie_k)
      (a_M_k.getD 1 0 - a_m_k.getD 1 0)
    (tau, mtie_k))

/-- `mtie_fast` of `src/lib.rs` (its validator panic modelled as an
error result). -/
def mtie_fast (samples : List ℚ) : Except MtieError (List (ℕ × ℚ)) :=
  let mtie := mtieFastList samples
  match check_monotomically_increasing mtie with
  | some (i, j, v0, v1) => Except.error (MtieError.notMonotonic i j v0 v1)
  | none => Except.ok mtie

/-- The two engines the Algorithm Selector chooses between. -/
inductive Engine where
  | complete
  | fast
  deriving DecidableEq, Repr

/-- The selection policy of `run`:
`if sample_count <= 100_000 { mtie_complete(&tie) } else { mtie_fast(&tie) }`. -/
def selectEngine (sample_count : ℕ) : Engine :=
  if sample_count ≤ 100000 then Engine.complete else Engine.fast

/-- The computation core of `run`: apply the selected engine. -/
def compute (tie : List ℚ) : Except MtieError (List (ℕ × ℚ)) :=
  match selectEngine tie.length with
  | Engine.complete => mtie_complete tie
  | Engine.fast => mtie_fast tie

/-- `true` exactly on a size-ceiling error result. -/
def isSizeExceeded : Except MtieError (List (ℕ × ℚ)) → Bool
  | Except.error (MtieError.sizeExceeded _ _) => true
  | _ => false

/-! ## Shape lemmas for the two result lists -/

theorem getD_map_range' {α : Type} (d : α) (f : ℕ → α) (n k : ℕ)
    (hk1 : 1 ≤ k) (hk2 : k ≤ n) :
    ((List.range' 1 n).map f).getD (k - 1) d = f k := by
  have hlen : k - 1 < ((List.range' 1 n).map f).length := by
    simp only [List.length_map, List.length_range']
    omega
  rw [List.getD_eq_getElem?_getD, List.getElem?_eq_getElem hlen, Option.getD_some]
  simp only [List.getElem_map, List.getElem_range']
  congr 1
  omega

theorem getD_cons_map_range' (f : ℕ → ℚ) (n i : ℕ) (hi1 : 1 ≤ i) (hi2 : i ≤ n) :
    ((0 : ℚ) :: (List.range' 1 n).map f).getD i 0 = f i := by
  obtain ⟨j, rfl⟩ : ∃ j, i = j + 1 := ⟨i - 1, by omega⟩
  rw [List.getD_cons_succ]
  have h := getD_map_range' (0 : ℚ) f n (j + 1) hi1 hi2
  simpa using h

/-- Adjacent-element chains over `List.range'`. -/
theorem chain'_range'_of (S : ℕ → ℕ → Prop) :
    ∀ (n s : ℕ), (∀ i, s ≤ i → i + 2 ≤ s + n → S i (i + 1)) →
    List.Chain' S (List.range' s n) := by
  intro n
  induction n with
  | zero => intro s h; simp
  | succ n ih =>
    intro s h
    rw [List.range'_succ]
    cases n with
    | zero => simp
    | succ n =>
      rw [List.range'_succ]
      refine List.chain'_cons.2 ⟨h s (le_refl s) (by omega), ?_⟩
      rw [← List.range'_succ]
      exact ih (s + 1) (fun i hi1 hi2 => h i (by omega) (by omega))

theorem map_range'_shift (g : ℕ → ℚ) :
    ∀ (c s : ℕ), (List.range' (s + 1) c).map (fun i => g (i - 1))
      = (List.range' s c).map g := by
  intro c
  induction c with
  | zero => intro s; rfl
  | succ c ih =>
    intro s
    rw [List.range'_succ, List.range'_succ, List.map_cons, List.map_cons, ih (s + 1)]
    simp

/-- Specialisation of `map_range'_shift` to loops starting at `i = 2`. -/
theorem map_range'_shift2 (g : ℕ → ℚ) (c : ℕ) :
    (List.range' 2 c).map (fun i => g (i - 1)) = (List.range' 1 c).map g :=
  map_range'_shift g c 1

/-! ## The Complete Engine produces the spec values -/

theorem completeScan_eq (x : List ℚ) (tau : ℕ) :
    completeScan x tau = scanSpecMax x tau := by
  have hfun : (fun (maximum : ℚ) interval_start =>
      let left_value := x.getD interval_start 0
      let right_value := x.getD (interval_start + tau) 0
      let difference := |right_value - left_value|
      if difference > maximum then difference else maximum)
      = fun (m : ℚ) i => max m |x.getD (i + tau) 0 - x.getD i 0| := by
    funext m i
    exact if_gt_eq_max m _
  unfold completeScan scanSpecMax foldMax
  rw [List.foldl_map, hfun]

theorem completeStep_spec (x : List ℚ) (s : ℕ) (l : List (ℕ × ℚ)) :
    completeStep x (specVal x s, l) (s + 1)
      = (specVal x (s + 1), l ++ [(s + 1, specVal x (s + 1))]) := by
  have hval : (if specVal x s > completeScan x (s + 1) then specVal x s
      else completeScan x (s + 1)) = specVal x (s + 1) := by
    rw [completeScan_eq, if_gt_eq_max', max_comm]
    rfl
  show ((if specVal x s > completeScan x (s + 1) then specVal x s
      else completeScan x (s + 1)),
    l ++ [(s + 1, if specVal x s > completeScan x (s + 1) then specVal x s
      else completeScan x (s + 1))]) = _
  rw [hval]

theorem completeFold_eq (x : List ℚ) :
    ∀ (n s : ℕ) (l : List (ℕ × ℚ)),
    (List.range' (s + 1) n).foldl (completeStep x) (specVal x s, l)
      = (specVal x (s + n),
         l ++ (List.range' (s + 1) n).map (fun t => (t, specVal x t))) := by
  intro n
  induction n with
  | zero => intro s l; simp
  | succ n ih =>
    intro s l
    rw [List.range'_succ, List.foldl_cons, completeStep_spec,
      ih (s + 1) (l ++ [(s + 1, specVal x (s + 1))]),
      show s + 1 + n = s + (n + 1) from by omega,
      List.map_cons, List.append_assoc]
    rfl

/-- The Complete Engine's result list is exactly the spec values at
`tau = 1, ..., N - 1`. -/
theorem mtieCompleteList_eq (x : List ℚ) :
    mtieCompleteList x
      = (List.range' 1 (x.length - 1)).map (fun t => (t, specVal x t)) := by
  show ((List.range' (0 + 1) (x.length - 1)).foldl (completeStep x) (specVal x 0, [])).2 = _
  rw [completeFold_eq x (x.length - 1) 0 []]
  simp

/-! ## The validator never fires on interval-sorted lists -/

theorem checkAux_eq_none :
    ∀ (l : List (ℕ × ℚ)), List.Chain' (fun p q : ℕ × ℚ => p.1 < q.1) l →
    ∀ (i : ℕ), checkAux i l = none := by
  intro l
  induction l with
  | nil => intro _ i; rfl
  | cons w0 t ih =>
    intro h i
    cases t with
    | nil => rfl
    | cons w1 rest =>
      have h1 : w0.1 < w1.1 := (List.chain'_cons.1 h).1
      have h2 := (List.chain'_cons.1 h).2
      show (if pairLt w1 w0 then some (i, i + 1, w0.2, w1.2)
        else checkAux (i + 1) (w1 :: rest)) = none
      rw [if_neg, ih h2 (i + 1)]
      intro hlt
      rcases hlt with hlt | ⟨heq, _⟩
      · omega
      · omega

theorem check_eq_none_of_firsts (l : List (ℕ × ℚ))
    (h : List.Chain' (fun p q : ℕ × ℚ => p.1 < q.1) l) :
    check_monotomically_increasing l = none :=
  checkAux_eq_none l h 0

/-- Intervals of the Complete Engine's result are strictly increasing. -/
theorem mtieCompleteList_chain_fst (x : List ℚ) :
    List.Chain' (fun p q : ℕ × ℚ => p.1 < q.1) (mtieCompleteList x) := by
  rw [mtieCompleteList_eq, List.chain'_map]
  exact chain'_range'_of _ (x.length - 1) 1 (fun i _ _ => by omega)

/-- On inputs within the size ceiling, `mtie_complete` returns its
result list normally (in particular, the validator check passes). -/
theorem mtie_complete_ok (x : List ℚ) (h : x.length ≤ 100000) :
    mtie_complete x = Except.ok (mtieCompleteList x) := by
  have hif : ¬ (x.length > MAX_DATA_SET_SIZE) := by
    unfold MAX_DATA_SET_SIZE
    omega
  show (if x.length > MAX_DATA_SET_SIZE then
      Except.error (MtieError.sizeExceeded MAX_DATA_SET_SIZE x.length)
    else
      match check_monotomically_increasing (mtieCompleteList x) with
      | some (i, j, v0, v1) => Except.error (MtieError.notMonotonic i j v0 v1)
      | none => Except.ok (mtieCompleteList x))
    = Except.ok (mtieCompleteList x)
  rw [if_neg hif, check_eq_none_of_firsts _ (mtieCompleteList_chain_fst x)]

/-! ## Correctness of the min/max pyramid

Row `k` of the pyramid holds, at (1-based) position `i`, the maximum /
minimum of the window of `2^k` consecutive samples starting at 0-based
position `i - 1`. -/

theorem levelRow_getD (x : List ℚ) :
    ∀ (m i : ℕ), 1 ≤ i → i ≤ x.length - 2 ^ (m + 1) + 1 → 2 ^ (m + 1) ≤ x.length →
    (levelRow x (m + 1)).1.getD i 0 = winMax x (i - 1) (2 ^ (m + 1)) ∧
    (levelRow x (m + 1)).2.getD i 0 = winMin x (i - 1) (2 ^ (m + 1)) := by
  intro m
  induction m with
  | zero =>
    intro i hi1 hi2 hN
    have h21 : (2 : ℕ) ^ 1 = 2 := by norm_num
    constructor
    · show ((0 : ℚ) :: (List.range' 1 (x.length - 2 ^ 1 + 1)).map (fun i =>
          let val1 := x.getD (i - 1) 0
          let val2 := x.getD i 0
          if val1 > val2 then val1 else val2)).getD i 0 = winMax x (i - 1) (2 ^ 1)
      rw [getD_cons_map_range' _ _ i hi1 (by omega)]
      show (if x.getD (i - 1) 0 > x.getD i 0 then x.getD (i - 1) 0 else x.getD i 0) = _
      rw [if_gt_eq_max', h21, winMax_two, show i - 1 + 1 = i from by omega]
    · show ((0 : ℚ) :: (List.range' 1 (x.length - 2 ^ 1 + 1)).map (fun i =>
          let val1 := x.getD (i - 1) 0
          let val2 := x.getD i 0
          if val1 < val2 then val1 else val2)).getD i 0 = winMin x (i - 1) (2 ^ 1)
      rw [getD_cons_map_range' _ _ i hi1 (by omega)]
      show (if x.getD (i - 1) 0 < x.getD i 0 then x.getD (i - 1) 0 else x.getD i 0) = _
      rw [if_lt_eq_min, h21, winMin_two, show i - 1 + 1 = i from by omega]
  | succ m ih =>
    intro i hi1 hi2 hN
    have hdouble : (2 : ℕ) ^ (m + 2) = 2 ^ (m + 1) + 2 ^ (m + 1) := by
      rw [pow_succ]
      omega
    have hpos : 1 ≤ (2 : ℕ) ^ (m + 1) := Nat.one_le_two_pow
    have ih1 := ih i hi1 (by omega) (by omega)
    have ih2 := ih (i + 2 ^ (m + 1)) (by omega) (by omega) (by omega)
    constructor
    · show ((0 : ℚ) :: (List.range' 1 (x.length - 2 ^ (m + 2) + 1)).map (fun i =>
          let max1 := (levelRow x (m + 1)).1.getD i 0
          let max2 := (levelRow x (m + 1)).1.getD (i + 2 ^ (m + 1)) 0
          if max1 > max2 then max1 else max2)).getD i 0 = winMax x (i - 1) (2 ^ (m + 2))
      rw [getD_cons_map_range' _ _ i hi1 (by omega)]
      show (if (levelRow x (m + 1)).1.getD i 0 > (levelRow x (m + 1)).1.getD (i + 2 ^ (m + 1)) 0
          then (levelRow x (m + 1)).1.getD i 0
          else (levelRow x (m + 1)).1.getD (i + 2 ^ (m + 1)) 0) = _
      rw [if_gt_eq_max', ih1.1, ih2.1,
        show i + 2 ^ (m + 1) - 1 = (i - 1) + 2 ^ (m + 1) from by omega,
        hdouble, winMax_split x _ _ _ hpos hpos]
    · show ((0 : ℚ) :: (List.range' 1 (x.length - 2 ^ (m + 2) + 1)).map (fun i =>
          let min1 := (levelRow x (m + 1)).2.getD i 0
          let min2 := (levelRow x (m + 1)).2.getD (i + 2 ^ (m + 1)) 0
          if min1 < min2 then min1 else min2)).getD i 0 = winMin x (i - 1) (2 ^ (m + 2))
      rw [getD_cons_map_range' _ _ i hi1 (by omega)]
      show (if (levelRow x (m + 1)).2.getD i 0 < (levelRow x (m + 1)).2.getD (i + 2 ^ (m + 1)) 0
          then (levelRow x (m + 1)).2.getD i 0
          else (levelRow x (m + 1)).2.getD (i + 2 ^ (m + 1)) 0) = _
      rw [if_lt_eq_min, ih1.2, ih2.2,
        show i + 2 ^ (m + 1) - 1 = (i - 1) + 2 ^ (m + 1) from by omega,
        hdouble, winMin_split x _ _ _ hpos hpos]

/-- The Fast Engine's result list: the pair for level `k` carries
interval `2^k - 1` and the maximal peak-to-peak excursion over all
windows of `2^k` consecutive samples. -/
theorem mtieFastList_eq (x : List ℚ) :
    mtieFastList x = (List.range' 1 (Nat.log 2 x.length)).map
      (fun k => (2 ^ k - 1, windowRangeMax x (2 ^ k))) := by
  refine List.map_congr_left ?_
  intro k hk
  obtain ⟨hk1, hk2⟩ := List.mem_range'_1.1 hk
  have hk2' : k ≤ Nat.log 2 x.length := by omega
  have hNpos : x.length ≠ 0 := by
    intro h0
    rw [h0] at hk2'
    simp [Nat.log] at hk2'
    omega
  have hpk : 2 ^ k ≤ x.length :=
    le_trans (Nat.pow_le_pow_right (by norm_num) hk2') (Nat.pow_log_le_self 2 hNpos)
  obtain ⟨m, rfl⟩ : ∃ m, k = m + 1 := ⟨k - 1, by omega⟩
  show (2 ^ (m + 1) - 1,
    (List.range' 2 (x.length - 2 ^ (m + 1) + 1 - 1)).foldl
      (fun mtie_k i =>
        if (levelRow x (m + 1)).1.getD i 0 - (levelRow x (m + 1)).2.getD i 0 > mtie_k then
          (levelRow x (m + 1)).1.getD i 0 - (levelRow x (m + 1)).2.getD i 0
        else mtie_k)
      ((levelRow x (m + 1)).1.getD 1 0 - (levelRow x (m + 1)).2.getD 1 0))
    = (2 ^ (m + 1) - 1, windowRangeMax x (2 ^ (m + 1)))
  have hfun : (fun (mtie_k : ℚ) i =>
      if (levelRow x (m + 1)).1.getD i 0 - (levelRow x (m + 1)).2.getD i 0 > mtie_k then
        (levelRow x (m + 1)).1.getD i 0 - (levelRow x (m + 1)).2.getD i 0
      else mtie_k)
      = fun (mk : ℚ) i =>
        max mk ((levelRow x (m + 1)).1.getD i 0 - (levelRow x (m + 1)).2.getD i 0) := by
    funext mk i
    exact if_gt_eq_max mk _
  rw [hfun, ← List.foldl_map (fun i =>
      (levelRow x (m + 1)).1.getD i 0 - (levelRow x (m + 1)).2.getD i 0) max]
  have hseed : (levelRow x (m + 1)).1.getD 1 0 - (levelRow x (m + 1)).2.getD 1 0
      = rangeAt x 0 (2 ^ (m + 1)) := by
    have h := levelRow_getD x m 1 (le_refl 1) (by omega) hpk
    rw [h.1, h.2]
    rfl
  have hmap : (List.range' 2 (x.length - 2 ^ (m + 1) + 1 - 1)).map (fun i =>
      (levelRow x (m + 1)).1.getD i 0 - (levelRow x (m + 1)).2.getD i 0)
      = (List.range' 1 (x.length - 2 ^ (m + 1))).map
        (fun s => rangeAt x s (2 ^ (m + 1))) := by
    rw [show x.length - 2 ^ (m + 1) + 1 - 1 = x.length - 2 ^ (m + 1) from by omega]
    rw [← map_range'_shift2 (fun s => rangeAt x s (2 ^ (m + 1))) (x.length - 2 ^ (m + 1))]
    refine List.map_congr_left ?_
    intro i hi
    obtain ⟨hi1, hi2⟩ := List.mem_range'_1.1 hi
    have h := levelRow_getD x m i (by omega) (by omega) hpk
    rw [h.1, h.2]
    rfl
  rw [hmap, hseed]
  rfl

/-- Intervals of the Fast Engine's result are strictly increasing. -/
theorem mtieFastList_chain_fst (x : List ℚ) :
    List.Chain' (fun p q : ℕ × ℚ => p.1 < q.1) (mtieFastList x) := by
  rw [mtieFastList_eq, List.chain'_map]
  refine chain'_range'_of _ (Nat.log 2 x.length) 1 ?_
  intro i _ _
  show 2 ^ i - 1 < 2 ^ (i + 1) - 1
  have hp : (2 : ℕ) ^ (i + 1) = 2 ^ i * 2 := pow_succ 2 i
  have h1 : 1 ≤ (2 : ℕ) ^ i := Nat.one_le_two_pow
  omega

/-- `mtie_fast` always returns its result list normally (the validator
check passes on every input). -/
theorem mtie_fast_ok (x : List ℚ) :
    mtie_fast x = Except.ok (mtieFastList x) := by
  show (match check_monotomically_increasing (mtieFastList x) with
    | some (i, j, v0, v1) => Except.error (MtieError.notMonotonic i j v0 v1)
    | none => Except.ok (mtieFastList x))
    = Except.ok (mtieFastList x)
  rw [check_eq_none_of_firsts _ (mtieFastList_chain_fst x)]

/-! ## Entry-extraction and shape helpers -/

theorem two_pow_le_of_le_log {N k : ℕ} (hk : 1 ≤ k) (h : k ≤ Nat.log 2 N) :
    2 ^ k ≤ N := by
  have hN : N ≠ 0 := by
    intro h0
    rw [h0, Nat.log_zero_right] at h
    omega
  exact le_trans (Nat.pow_le_pow_right (by norm_num) h) (Nat.pow_log_le_self 2 hN)

theorem mtieCompleteList_getD (x : List ℚ) (tau : ℕ) (h1 : 1 ≤ tau)
    (h2 : tau ≤ x.length - 1) :
    (mtieCompleteList x).getD (tau - 1) (0, 0) = (tau, specVal x tau) := by
  rw [mtieCompleteList_eq, getD_map_range' _ _ _ tau h1 h2]

theorem mtieFastList_getD (x : List ℚ) (k : ℕ) (hk1 : 1 ≤ k)
    (hk2 : k ≤ Nat.log 2 x.length) :
    (mtieFastList x).getD (k - 1) (0, 0) = (2 ^ k - 1, windowRangeMax x (2 ^ k)) := by
  rw [mtieFastList_eq, getD_map_range' _ _ _ k hk1 hk2]

theorem mtieCompleteList_length (x : List ℚ) :
    (mtieCompleteList x).length = x.length - 1 := by
  rw [mtieCompleteList_eq]
  simp

theorem mtieCompleteList_map_fst (x : List ℚ) :
    (mtieCompleteList x).map Prod.fst = List.range' 1 (x.length - 1) := by
  rw [mtieCompleteList_eq, List.map_map]
  have hid : (Prod.fst ∘ fun t : ℕ => ((t, specVal x t) : ℕ × ℚ)) = id := rfl
  rw [hid, List.map_id]

theorem mtieFastList_length (x : List ℚ) :
    (mtieFastList x).length = Nat.log 2 x.length := by
  rw [mtieFastList_eq]
  simp

theorem mtieFastList_map_fst (x : List ℚ) :
    (mtieFastList x).map Prod.fst
      = (List.range' 1 (Nat.log 2 x.length)).map (fun k => 2 ^ k - 1) := by
  rw [mtieFastList_eq, List.map_map]
  rfl

/-! ## The claims -/

/-- C1: for every sample sequence of length `2 ≤ N ≤ 100000`,
`mtie_complete` returns, for each `tau` in `1..N-1` (at position
`tau - 1` of its result), the value obtained by taking the maximum over
every window start `0..N-tau-1` of
`|samples[start+tau] - samples[start]|` and then the larger of that
scan maximum and the value for `tau - 1` (with `0` before `tau = 1`);
the returned value is never smaller than the prior interval's value. -/
theorem C1_complete_value (x : List ℚ) (_hN2 : 2 ≤ x.length)
    (hN : x.length ≤ 100000) (tau : ℕ) (ht1 : 1 ≤ tau)
    (ht2 : tau ≤ x.length - 1) :
    mtie_complete x = Except.ok (mtieCompleteList x) ∧
    (mtieCompleteList x).getD (tau - 1) (0, 0) = (tau, specVal x tau) ∧
    specVal x tau = max (scanSpecMax x tau) (specVal x (tau - 1)) ∧
    specVal x (tau - 1) ≤ specVal x tau := by
  obtain ⟨t, rfl⟩ : ∃ t, tau = t + 1 := ⟨tau - 1, by omega⟩
  exact ⟨mtie_complete_ok x hN, mtieCompleteList_getD x (t + 1) ht1 ht2,
    rfl, specVal_succ_le x t⟩

/-- Witness for C1: samples `[0, 2, 1]`, `tau = 2`. -/
theorem C1_complete_value_witness :
    (2 ≤ List.length [(0 : ℚ), 2, 1] ∧ List.length [(0 : ℚ), 2, 1] ≤ 100000 ∧
     1 ≤ 2 ∧ 2 ≤ List.length [(0 : ℚ), 2, 1] - 1) ∧
    (mtie_complete [(0 : ℚ), 2, 1] = Except.ok (mtieCompleteList [(0 : ℚ), 2, 1]) ∧
     (mtieCompleteList [(0 : ℚ), 2, 1]).getD (2 - 1) (0, 0)
       = (2, specVal [(0 : ℚ), 2, 1] 2) ∧
     specVal [(0 : ℚ), 2, 1] 2
       = max (scanSpecMax [(0 : ℚ), 2, 1] 2) (specVal [(0 : ℚ), 2, 1] (2 - 1)) ∧
     specVal [(0 : ℚ), 2, 1] (2 - 1) ≤ specVal [(0 : ℚ), 2, 1] 2) :=
  ⟨⟨by norm_num, by norm_num, by norm_num, by norm_num⟩,
   C1_complete_value [(0 : ℚ), 2, 1] (by norm_num) (by norm_num) 2
     (by norm_num) (by norm_num)⟩

/-- C2: for every sample sequence of length `N ≥ 2` and level
`1 ≤ k ≤ floor(log2 N)`, `mtie_fast`'s pair at position `k - 1` has
interval `2^k - 1` and value equal to the maximum, over all windows of
`2^k` consecutive samples, of (window maximum − window minimum); the
pyramid rows realising this are built per level as in the source
(`levelRow`). -/
theorem C2_fast_level_value (x : List ℚ) (_hN : 2 ≤ x.length) (k : ℕ)
    (hk1 : 1 ≤ k) (hk2 : k ≤ Nat.log 2 x.length) :
    mtie_fast x = Except.ok (mtieFastList x) ∧
    (mtieFastList x).getD (k - 1) (0, 0)
      = (2 ^ k - 1, windowRangeMax x (2 ^ k)) :=
  ⟨mtie_fast_ok x, mtieFastList_getD x k hk1 hk2⟩

/-- Witness for C2: samples `[1, 2, 3, 4]`, level `k = 2`. -/
theorem C2_fast_level_value_witness :
    (2 ≤ List.length [(1 : ℚ), 2, 3, 4] ∧ 1 ≤ 2 ∧
     2 ≤ Nat.log 2 (List.length [(1 : ℚ), 2, 3, 4])) ∧
    (mtie_fast [(1 : ℚ), 2, 3, 4] = Except.ok (mtieFastList [(1 : ℚ), 2, 3, 4]) ∧
     (mtieFastList [(1 : ℚ), 2, 3, 4]).getD (2 - 1) (0, 0)
       = (2 ^ 2 - 1, windowRangeMax [(1 : ℚ), 2, 3, 4] (2 ^ 2))) := by
  have hlog : Nat.log 2 (List.length [(1 : ℚ), 2, 3, 4]) = 2 := by
    rw [show List.length [(1 : ℚ), 2, 3, 4] = 4 from rfl]
    exact Nat.log_eq_of_pow_le_of_lt_pow (by norm_num) (by norm_num)
  exact ⟨⟨by norm_num, by norm_num, by rw [hlog]⟩,
    C2_fast_level_value [(1 : ℚ), 2, 3, 4] (by norm_num) 2 (by norm_num)
      (by rw [hlog])⟩

/-- C3: both engines' outputs are monotonically non-decreasing in
mtie value as tau increases (`Chain'` of `≤` on the second components),
and the engines do return those lists (`mtie_fast` always,
`mtie_complete` whenever the input is within its size ceiling). -/
theorem C3_monotone (x : List ℚ) :
    List.Chain' (fun p q : ℕ × ℚ => p.2 ≤ q.2) (mtieCompleteList x) ∧
    List.Chain' (fun p q : ℕ × ℚ => p.2 ≤ q.2) (mtieFastList x) ∧
    mtie_fast x = Except.ok (mtieFastList x) ∧
    (100000 < x.length ∨ mtie_complete x = Except.ok (mtieCompleteList x)) := by
  refine ⟨?_, ?_, mtie_fast_ok x, ?_⟩
  · rw [mtieCompleteList_eq, List.chain'_map]
    exact chain'_range'_of _ _ _ (fun t _ _ => specVal_succ_le x t)
  · rw [mtieFastList_eq, List.chain'_map]
    refine chain'_range'_of _ (Nat.log 2 x.length) 1 ?_
    intro i hi1 hi2
    show windowRangeMax x (2 ^ i) ≤ windowRangeMax x (2 ^ (i + 1))
    refine windowRangeMax_mono x Nat.one_le_two_pow
      (Nat.pow_le_pow_right (by norm_num) (by omega)) ?_
    exact two_pow_le_of_le_log (by omega) (by omega)
  · rcases le_or_lt x.length 100000 with h | h
    · exact Or.inr (mtie_complete_ok x h)
    · exact Or.inl h

/-- C4 (divergence witness): the validator compares the whole
`(interval, value)` pairs with the lexicographic tuple order
(`window[1] < window[0]`), interval first.  On the list
`[(1, 5), (2, 3)]` the mtie value decreases from `5` to `3`, yet the
check returns normally (`none`) because the intervals increase, so the
violation is not flagged. -/
theorem C4_validator_misses_value_decrease :
    check_monotomically_increasing [(1, (5 : ℚ)), (2, 3)] = none ∧ (3 : ℚ) < 5 := by
  constructor
  · decide
  · norm_num

/-- C5: on any input of more than 100000 samples, `mtie_complete` fails
immediately with the size-ceiling error carrying the ceiling `100000`
and the actual sample count. -/
theorem C5_size_ceiling (x : List ℚ) (h : 100000 < x.length) :
    mtie_complete x = Except.error (MtieError.sizeExceeded 100000 x.length) := by
  show (if x.length > MAX_DATA_SET_SIZE then
      Except.error (MtieError.sizeExceeded MAX_DATA_SET_SIZE x.length)
    else
      match check_monotomically_increasing (mtieCompleteList x) with
      | some (i, j, v0, v1) => Except.error (MtieError.notMonotonic i j v0 v1)
      | none => Except.ok (mtieCompleteList x))
    = Except.error (MtieError.sizeExceeded 100000 x.length)
  rw [if_pos]
  · rfl
  · show x.length > MAX_DATA_SET_SIZE
    unfold MAX_DATA_SET_SIZE
    omega

/-- Witness for C5: exactly 100001 samples fail with ceiling `100000`
and actual count `100001`. -/
theorem C5_size_ceiling_witness :
    100000 < (List.replicate 100001 (0 : ℚ)).length ∧
    mtie_complete (List.replicate 100001 (0 : ℚ))
      = Except.error (MtieError.sizeExceeded 100000 100001) := by
  have hlen : (List.replicate 100001 (0 : ℚ)).length = 100001 :=
    List.length_replicate 100001 0
  constructor
  · rw [hlen]
    norm_num
  · have h := C5_size_ceiling (List.replicate 100001 (0 : ℚ))
      (by rw [hlen]; norm_num)
    rw [hlen] at h
    exact h

/-- C6: the Selector invokes the Complete Engine exactly when the
sample count is at most 100000 (otherwise the Fast Engine), and the
computation it dispatches never produces the Complete Engine's
size-ceiling failure. -/
theorem C6_selector (tie : List ℚ) :
    (selectEngine tie.length = Engine.complete ↔ tie.length ≤ 100000) ∧
    isSizeExceeded (compute tie) = false := by
  constructor
  · unfold selectEngine
    rcases le_or_lt tie.length 100000 with h | h
    · rw [if_pos h]
      simp [h]
    · rw [if_neg (by omega)]
      constructor
      · intro hc
        exact Engine.noConfusion hc
      · intro hle
        omega
  · show isSizeExceeded (match selectEngine tie.length with
      | Engine.complete => mtie_complete tie
      | Engine.fast => mtie_fast tie) = false
    rcases le_or_lt tie.length 100000 with h | h
    · have hsel : selectEngine tie.length = Engine.complete := by
        unfold selectEngine
        rw [if_pos h]
      rw [hsel, mtie_complete_ok tie h]
      rfl
    · have hsel : selectEngine tie.length = Engine.fast := by
        unfold selectEngine
        rw [if_neg (by omega)]
      rw [hsel, mtie_fast_ok tie]
      rfl

/-- C7: for every sample sequence of length `N ≥ 2`, `mtie_fast`
returns exactly `floor(log2 N)` pairs, whose intervals are
`2^1 - 1, 2^2 - 1, ..., 2^(floor(log2 N)) - 1` in order — hence
strictly increasing. -/
theorem C7_fast_shape (x : List ℚ) (_hN : 2 ≤ x.length) :
    mtie_fast x = Except.ok (mtieFastList x) ∧
    (mtieFastList x).length = Nat.log 2 x.length ∧
    (mtieFastList x).map Prod.fst
      = (List.range' 1 (Nat.log 2 x.length)).map (fun k => 2 ^ k - 1) ∧
    List.Chain' (fun p q : ℕ × ℚ => p.1 < q.1) (mtieFastList x) :=
  ⟨mtie_fast_ok x, mtieFastList_length x, mtieFastList_map_fst x,
   mtieFastList_chain_fst x⟩

/-- Witness for C7: samples `[1, 2, 3, 4]`. -/
theorem C7_fast_shape_witness :
    2 ≤ List.length [(1 : ℚ), 2, 3, 4] ∧
    (mtie_fast [(1 : ℚ), 2, 3, 4] = Except.ok (mtieFastList [(1 : ℚ), 2, 3, 4]) ∧
     (mtieFastList [(1 : ℚ), 2, 3, 4]).length
       = Nat.log 2 (List.length [(1 : ℚ), 2, 3, 4]) ∧
     (mtieFastList [(1 : ℚ), 2, 3, 4]).map Prod.fst
       = (List.range' 1 (Nat.log 2 (List.length [(1 : ℚ), 2, 3, 4]))).map
           (fun k => 2 ^ k - 1) ∧
     List.Chain' (fun p q : ℕ × ℚ => p.1 < q.1) (mtieFastList [(1 : ℚ), 2, 3, 4])) :=
  ⟨by norm_num, C7_fast_shape [(1 : ℚ), 2, 3, 4] (by norm_num)⟩

/-- C8: for every sample sequence of length `N ≤ 100000`,
`mtie_complete` succeeds and returns exactly `N - 1` pairs whose
intervals are `1, 2, ..., N - 1` in increasing order; in particular for
`N ≤ 1` the result is empty (`N - 1 = 0`) and no error is raised. -/
theorem C8_complete_shape (x : List ℚ) (h : x.length ≤ 100000) :
    mtie_complete x = Except.ok (mtieCompleteList x) ∧
    (mtieCompleteList x).length = x.length - 1 ∧
    (mtieCompleteList x).map Prod.fst = List.range' 1 (x.length - 1) ∧
    (2 ≤ x.length ∨ mtieCompleteList x = []) := by
  refine ⟨mtie_complete_ok x h, mtieCompleteList_length x,
    mtieCompleteList_map_fst x, ?_⟩
  rcases le_or_lt 2 x.length with h2 | h2
  · exact Or.inl h2
  · refine Or.inr ?_
    rw [mtieCompleteList_eq, show x.length - 1 = 0 from by omega]
    rfl

/-- Witness for C8: the single-sample input `[1]` (empty result, no
error). -/
theorem C8_complete_shape_witness :
    List.length [(1 : ℚ)] ≤ 100000 ∧
    (mtie_complete [(1 : ℚ)] = Except.ok (mtieCompleteList [(1 : ℚ)]) ∧
     (mtieCompleteList [(1 : ℚ)]).length = List.length [(1 : ℚ)] - 1 ∧
     (mtieCompleteList [(1 : ℚ)]).map Prod.fst
       = List.range' 1 (List.length [(1 : ℚ)] - 1) ∧
     (2 ≤ List.length [(1 : ℚ)] ∨ mtieCompleteList [(1 : ℚ)] = [])) :=
  ⟨by norm_num, C8_complete_shape [(1 : ℚ)] (by norm_num)⟩

/-- C9: on inputs where both engines apply (`2 ≤ N ≤ 100000`), for
every level `1 ≤ k ≤ floor(log2 N)` the Complete Engine's value at
interval `2^k - 1` (position `2^k - 2`) and the Fast Engine's value at
the same interval (position `k - 1`) are both the maximum peak-to-peak
excursion over all windows of `2^k` consecutive samples — so the
engines agree at every dyadic interval. -/
theorem C9_engines_agree (x : List ℚ) (_hN2 : 2 ≤ x.length)
    (hN : x.length ≤ 100000) (k : ℕ) (hk1 : 1 ≤ k)
    (hk2 : k ≤ Nat.log 2 x.length) :
    mtie_complete x = Except.ok (mtieCompleteList x) ∧
    (mtieCompleteList x).getD (2 ^ k - 2) (0, 0)
      = (2 ^ k - 1, windowRangeMax x (2 ^ k)) ∧
    (mtieFastList x).getD (k - 1) (0, 0)
      = (2 ^ k - 1, windowRangeMax x (2 ^ k)) := by
  have hpk : 2 ^ k ≤ x.length := two_pow_le_of_le_log hk1 hk2
  have h2k : 2 ≤ (2 : ℕ) ^ k := by
    calc (2 : ℕ) = 2 ^ 1 := (pow_one 2).symm
    _ ≤ 2 ^ k := Nat.pow_le_pow_right (by norm_num) hk1
  refine ⟨mtie_complete_ok x hN, ?_, mtieFastList_getD x k hk1 hk2⟩
  rw [show 2 ^ k - 2 = (2 ^ k - 1) - 1 from by omega,
    mtieCompleteList_getD x (2 ^ k - 1) (by omega) (by omega),
    specVal_eq_windowRangeMax x (2 ^ k - 1) (by omega) (by omega),
    show 2 ^ k - 1 + 1 = 2 ^ k from by omega]

/-- Witness for C9: samples `[0, 2, 1]`, level `k = 1`. -/
theorem C9_engines_agree_witness :
    (2 ≤ List.length [(0 : ℚ), 2, 1] ∧ List.length [(0 : ℚ), 2, 1] ≤ 100000 ∧
     1 ≤ 1 ∧ 1 ≤ Nat.log 2 (List.length [(0 : ℚ), 2, 1])) ∧
    (mtie_complete [(0 : ℚ), 2, 1] = Except.ok (mtieCompleteList [(0 : ℚ), 2, 1]) ∧
     (mtieCompleteList [(0 : ℚ), 2, 1]).getD (2 ^ 1 - 2) (0, 0)
       = (2 ^ 1 - 1, windowRangeMax [(0 : ℚ), 2, 1] (2 ^ 1)) ∧
     (mtieFastList [(0 : ℚ), 2, 1]).getD (1 - 1) (0, 0)
       = (2 ^ 1 - 1, windowRangeMax [(0 : ℚ), 2, 1] (2 ^ 1))) := by
  have hlog : Nat.log 2 (List.length [(0 : ℚ), 2, 1]) = 1 := by
    rw [show List.length [(0 : ℚ), 2, 1] = 3 from rfl]
    exact Nat.log_eq_of_pow_le_of_lt_pow (by norm_num) (by norm_num)
  exact ⟨⟨by norm_num, by norm_num, by norm_num, by rw [hlog]⟩,
    C9_engines_agree [(0 : ℚ), 2, 1] (by norm_num) (by norm_num) 1
      (by norm_num) (by rw [hlog])⟩

/-- C10: below the Fast Engine's stated precondition (`N ≤ 1`),
`mtie_fast` returns an empty sequence without failing: `k_max`
evaluates to `0`, so no levels are built and no pairs are produced. -/
theorem C10_fast_trivial (x : List ℚ) (h : x.length ≤ 1) :
    mtie_fast x = Except.ok [] ∧ Nat.log 2 x.length = 0 := by
  have hlog : Nat.log 2 x.length = 0 :=
    Nat.log_eq_zero_iff.2 (Or.inl (by omega))
  have hempty : mtieFastList x = [] := by
    rw [mtieFastList_eq, hlog]
    rfl
  constructor
  · rw [mtie_fast_ok x, hempty]
  · exact hlog

/-- Witness for C10: the single-sample input `[5]`. -/
theorem C10_fast_trivial_witness :
    List.length [(5 : ℚ)] ≤ 1 ∧
    (mtie_fast [(5 : ℚ)] = Except.ok [] ∧
     Nat.log 2 (List.length [(5 : ℚ)]) = 0) :=
  ⟨by norm_num, C10_fast_trivial [(5 : ℚ)] (by norm_num)⟩

end MtieLib
